import Mathlib

/-!
Verification of the meal-capture pipeline of the image-to-text nutrition
tracker, shallowly embedded from `src/app/page.tsx`: the macro response
parser (`parseMacros`), the meal record store and its persistence
(`localStorage` load/save with `JSON.parse`/`JSON.stringify`), the
aggregator (`totalMacros`), the image preprocessor's dimension
computation (`compressImage`), and the submission workflow state handling
(`handleSubmit`, `deleteMeal`).

Strings are modelled as Lean `String`/`List Char`; JavaScript numbers
arising here are non-negative integers and are modelled as `Nat`
(rationals where a scale ratio is involved).
-/

namespace Nutrition

/-- Macro values: the four numeric fields of the `Macros` interface. -/
structure Macros where
  calories : Nat
  protein : Nat
  carbs : Nat
  fat : Nat
  deriving DecidableEq, Repr

/-- A meal record, mirroring the `Meal` interface of `src/app/page.tsx`. -/
structure Meal where
  id : String
  timestamp : Nat
  image : String
  macros : Macros
  rawText : String
  deriving DecidableEq, Repr

/-! ## Macro response parser

`parseMacros` applies four regexes of the common shape `pre(\d+)suf` with
`String.prototype.match` (leftmost match) and `parseInt(match[1], 10)`,
defaulting to 0 when a regex has no match.  The regex is embedded
directly: at a candidate position the literal prefix must match, then
`(\d+)` takes the maximal digit run and backtracks greedily, then the
literal suffix must match. -/

/-- Value of an all-digit numeral, as `parseInt(-, 10)` computes it. -/
def digitsToNat (ds : List Char) : Nat :=
  ds.foldl (fun n c => n * 10 + (c.toNat - 48)) 0

/-- Greedy-with-backtracking match of the regex tail `(\d+)suf` against
`run ++ after`, where `run` is the maximal digit run at the current
position: the counter is the candidate capture-group length, tried
longest first, and at least one digit must be captured. -/
def tryBacktrack (run after suf : List Char) : Nat → Option Nat
  | 0 => none
  | k + 1 =>
    if suf.isPrefixOf (run.drop (k + 1) ++ after) then
      some (digitsToNat (run.take (k + 1)))
    else
      tryBacktrack run after suf k

/-- Match of the regex `pre(\d+)suf` anchored at the start of `s`. -/
def matchAt (s pre suf : List Char) : Option Nat :=
  if pre.isPrefixOf s then
    tryBacktrack ((s.drop pre.length).takeWhile Char.isDigit)
      ((s.drop pre.length).dropWhile Char.isDigit) suf
      ((s.drop pre.length).takeWhile Char.isDigit).length
  else
    none

/-- Leftmost match of `pre(\d+)suf` in `s`, as `text.match(regex)` finds
it: candidate positions are tried left to right. -/
def findMatch (pre suf : List Char) : List Char → Option Nat
  | [] => matchAt [] pre suf
  | c :: t =>
    match matchAt (c :: t) pre suf with
    | some n => some n
    | none => findMatch pre suf t

/-- The `getVal` helper of `parseMacros`: value of the first match of the
pattern, or 0 when there is none. -/
def getVal (pre suf s : List Char) : Nat :=
  (findMatch pre suf s).getD 0

/-- Literal prefix of the calories regex `/# ⚡ (\d+) Calories/`. -/
def calPre : List Char := "# ⚡ ".data

/-- Literal suffix of the calories regex. -/
def calSuf : List Char := " Calories".data

/-- Literal prefix of the protein regex `/\*\*Protein:\*\* (\d+)g/`. -/
def proPre : List Char := "**Protein:** ".data

/-- Literal prefix of the carbs regex `/\*\*Carbs:\*\* (\d+)g/`. -/
def carbPre : List Char := "**Carbs:** ".data

/-- Literal prefix of the fat regex `/\*\*Fat:\*\* (\d+)g/`. -/
def fatPre : List Char := "**Fat:** ".data

/-- Literal suffix `g` shared by the protein, carbs and fat regexes. -/
def gSuf : List Char := "g".data

/-- The macro response parser `parseMacros` of `src/app/page.tsx`: four
independent pattern matches with zero fallback. -/
def parseMacros (text : String) : Macros :=
  ⟨getVal calPre calSuf text.data, getVal proPre gSuf text.data,
    getVal carbPre gSuf text.data, getVal fatPre gSuf text.data⟩

example :
    parseMacros "# ⚡ 540 Calories\n**Protein:** 30g  |  **Carbs:** 60g  |  **Fat:** 20g" =
      ⟨540, 30, 60, 20⟩ := by decide

example : parseMacros "" = ⟨0, 0, 0, 0⟩ := by decide

example : parseMacros "**Protein:** 7g and then **Protein:** 9g" = ⟨0, 7, 0, 0⟩ := by decide

/-! ### Zero fallback (claim C2) -/

/-- A nonempty pattern never matches at the end of the text. -/
theorem matchAt_nil (pre suf : List Char) (h : pre ≠ []) : matchAt [] pre suf = none := by
  cases pre with
  | nil => exact absurd rfl h
  | cons p pre' => simp [matchAt, List.isPrefixOf]

/-- If the pattern matches at no position of the text, the leftmost-match
search comes back empty. -/
theorem findMatch_eq_none (pre suf : List Char) :
    ∀ s : List Char, (∀ i, i ≤ s.length → matchAt (s.drop i) pre suf = none) →
      findMatch pre suf s = none := by
  intro s
  induction s with
  | nil => intro h; simpa [findMatch] using h 0 (by simp)
  | cons c t ih =>
    intro h
    have h0 : matchAt (c :: t) pre suf = none := by simpa using h 0 (by simp)
    have ht : findMatch pre suf t = none := by
      refine ih fun i hi => ?_
      simpa using h (i + 1) (by simpa using hi)
    simp [findMatch, h0, ht]

/-- Claim C2: `parseMacros` is a total function on strings — it returns a
`Macros` value for every input and signals no error — the four fields are
matched independently, a field whose pattern matches at no position of
the text is 0, and the empty string yields all zeros. -/
theorem parseMacros_total_with_zero_fallback :
    parseMacros "" = ⟨0, 0, 0, 0⟩ ∧
    ∀ text : String,
      ((∀ i, i ≤ text.data.length → matchAt (text.data.drop i) calPre calSuf = none) →
        (parseMacros text).calories = 0) ∧
      ((∀ i, i ≤ text.data.length → matchAt (text.data.drop i) proPre gSuf = none) →
        (parseMacros text).protein = 0) ∧
      ((∀ i, i ≤ text.data.length → matchAt (text.data.drop i) carbPre gSuf = none) →
        (parseMacros text).carbs = 0) ∧
      ((∀ i, i ≤ text.data.length → matchAt (text.data.drop i) fatPre gSuf = none) →
        (parseMacros text).fat = 0) := by
  refine ⟨by decide, fun text => ⟨fun h => ?_, fun h => ?_, fun h => ?_, fun h => ?_⟩⟩ <;>
    simp [parseMacros, getVal, findMatch_eq_none _ _ _ h]

/-- Witness for C2 at a concrete malformed input. -/
theorem parseMacros_total_with_zero_fallback_witness :
    parseMacros "I cannot identify any food items" = ⟨0, 0, 0, 0⟩ := by
  have h := parseMacros_total_with_zero_fallback.2 "I cannot identify any food items"
  have h1 := h.1 (by decide)
  have h2 := h.2.1 (by decide)
  have h3 := h.2.2.1 (by decide)
  have h4 := h.2.2.2 (by decide)
  cases hm : parseMacros "I cannot identify any food items"
  simp_all

/-! ### Template extraction (claim C1) -/

/-- The text has no digit at its head (in particular it may be empty). -/
def noDigitHead (t : List Char) : Prop :=
  ∀ c, t.head? = some c → c.isDigit = false

theorem noDigitHead_cons (c : Char) (t : List Char) (h : c.isDigit = false) :
    noDigitHead (c :: t) := by
  intro d hd
  simp only [List.head?_cons, Option.some.injEq] at hd
  exact hd ▸ h

/-- A list is a (boolean) prefix of itself followed by anything. -/
theorem isPrefixOf_append_self (l t : List Char) : l.isPrefixOf (l ++ t) = true := by
  induction l with
  | nil => simp [List.isPrefixOf]
  | cons c l' ih => simp [List.isPrefixOf, ih]

/-- The maximal digit run at the front of `ds ++ t` is exactly `ds` when
`ds` is all digits and `t` does not begin with one. -/
theorem takeWhile_digits (ds t : List Char) (hds : ∀ c ∈ ds, c.isDigit = true)
    (ht : noDigitHead t) : (ds ++ t).takeWhile Char.isDigit = ds := by
  induction ds with
  | nil =>
    cases t with
    | nil => simp
    | cons c t' => simp [List.takeWhile, ht c rfl]
  | cons d ds' ih =>
    have hd : d.isDigit = true := hds d (List.mem_cons_self d ds')
    have := ih fun c hc => hds c (List.mem_cons_of_mem d hc)
    simp [List.takeWhile, hd, this]

/-- What is left after the maximal digit run of `ds ++ t` is exactly `t`. -/
theorem dropWhile_digits (ds t : List Char) (hds : ∀ c ∈ ds, c.isDigit = true)
    (ht : noDigitHead t) : (ds ++ t).dropWhile Char.isDigit = t := by
  induction ds with
  | nil =>
    cases t with
    | nil => simp
    | cons c t' => simp [List.dropWhile, ht c rfl]
  | cons d ds' ih =>
    have hd : d.isDigit = true := hds d (List.mem_cons_self d ds')
    have := ih fun c hc => hds c (List.mem_cons_of_mem d hc)
    simp [List.dropWhile, hd, this]

/-- A pattern `pre(\d+)suf` matches at the head of `pre ++ ds ++ suf ++ v`
and captures exactly `ds`, for any continuation `v`, provided `ds` is a
nonempty digit run and `suf` does not begin with a digit. -/
theorem matchAt_exact (pre ds suf v : List Char) (hne : ds ≠ [])
    (hds : ∀ c ∈ ds, c.isDigit = true) (hsuf : noDigitHead (suf ++ v)) :
    matchAt (pre ++ (ds ++ (suf ++ v))) pre suf = some (digitsToNat ds) := by
  have hp : pre.isPrefixOf (pre ++ (ds ++ (suf ++ v))) = true :=
    isPrefixOf_append_self pre _
  have hdrop : (pre ++ (ds ++ (suf ++ v))).drop pre.length = ds ++ (suf ++ v) :=
    List.drop_left pre _
  have htake : (ds ++ (suf ++ v)).takeWhile Char.isDigit = ds :=
    takeWhile_digits ds _ hds hsuf
  have hdropw : (ds ++ (suf ++ v)).dropWhile Char.isDigit = suf ++ v :=
    dropWhile_digits ds _ hds hsuf
  rw [matchAt, if_pos hp, hdrop, htake, hdropw]
  cases ds with
  | nil => exact absurd rfl hne
  | cons d ds' =>
    have hlen : (d :: ds').length = ds'.length + 1 := rfl
    rw [hlen, tryBacktrack, ← hlen, List.drop_length, List.take_length,
      List.nil_append, if_pos (isPrefixOf_append_self suf v)]

/-- A match at the very first position is the leftmost match. -/
theorem findMatch_of_matchAt (pre suf s : List Char) (n : Nat)
    (h : matchAt s pre suf = some n) : findMatch pre suf s = some n := by
  cases s with
  | nil => simpa [findMatch] using h
  | cons c t => simp [findMatch, h]

/-- Leftmost-match search walks past a region at whose positions the
pattern fails to match. -/
theorem findMatch_skip_of_all_fail (pre suf : List Char) :
    ∀ u v : List Char, (∀ i, i < u.length → matchAt ((u ++ v).drop i) pre suf = none) →
      findMatch pre suf (u ++ v) = findMatch pre suf v := by
  intro u
  induction u with
  | nil => intro v _; rfl
  | cons c u' ih =>
    intro v h
    have h0 : matchAt (c :: (u' ++ v)) pre suf = none := by simpa using h 0 (by simp)
    have ht : findMatch pre suf (u' ++ v) = findMatch pre suf v := by
      refine ih v fun i hi => ?_
      simpa using h (i + 1) (by simpa using hi)
    calc findMatch pre suf ((c :: u') ++ v)
        = findMatch pre suf (u' ++ v) := by simp [findMatch, h0]
      _ = findMatch pre suf v := ht

/-- Leftmost-match search walks past a region none of whose characters
can begin the pattern. -/
theorem findMatch_skip (pre suf : List Char) (hne : pre ≠ []) :
    ∀ u v : List Char, (∀ c ∈ u, pre.head? ≠ some c) →
      findMatch pre suf (u ++ v) = findMatch pre suf v := by
  intro u
  induction u with
  | nil => intro v _; rfl
  | cons c u' ih =>
    intro v h
    cases pre with
    | nil => exact absurd rfl hne
    | cons p pre' =>
      have hpc : (p == c) = false := by
        have := h c (List.mem_cons_self c u')
        simp only [List.head?_cons, ne_eq, Option.some.injEq] at this
        simpa using this
      have h0 : matchAt (c :: (u' ++ v)) (p :: pre') suf = none := by
        rw [matchAt, if_neg]
        simp [List.isPrefixOf, hpc]
      have ht : findMatch (p :: pre') suf (u' ++ v) = findMatch (p :: pre') suf v :=
        ih v fun d hd => h d (List.mem_cons_of_mem c hd)
      calc findMatch (p :: pre') suf ((c :: u') ++ v)
          = findMatch (p :: pre') suf (u' ++ v) := by simp [findMatch, h0]
        _ = findMatch (p :: pre') suf v := ht

/-- A star cannot be a digit, so a digit run cannot start a bold label. -/
theorem head_star_ne_digits (pre : List Char) (hp : pre.head? = some '*')
    (u : List Char) (hu : ∀ c ∈ u, c.isDigit = true) : ∀ c ∈ u, pre.head? ≠ some c := by
  intro c hc h
  rw [hp] at h
  have : ('*' : Char) = c := by simpa using h
  have : ('*' : Char).isDigit = true := this ▸ hu c hc
  exact absurd this (by decide)

/-- Separator `  |  ` between the fields of the template's detail line. -/
def sepChars : List Char := "  |  ".data

/-- An answer laid out exactly as the fixed two-line template of the
prompt, with `dc`, `dp`, `db`, `df` the embedded digit runs and `rest` an
arbitrary continuation (so that any later occurrence of a pattern inside
`rest` is provably ignored in favour of the earliest one). -/
def answerChars (dc dp db df rest : List Char) : List Char :=
  calPre ++ dc ++ calSuf ++ "\n".data ++ proPre ++ dp ++ gSuf ++ sepChars ++
    carbPre ++ db ++ gSuf ++ sepChars ++ fatPre ++ df ++ gSuf ++ rest

theorem getVal_cal_answer (dc dp db df rest : List Char) (hne : dc ≠ [])
    (hdig : ∀ c ∈ dc, c.isDigit = true) :
    getVal calPre calSuf (answerChars dc dp db df rest) = digitsToNat dc := by
  rw [answerChars, getVal]
  simp only [List.append_assoc]
  rw [findMatch_of_matchAt calPre calSuf _ (digitsToNat dc)
    (matchAt_exact calPre dc calSuf _ hne hdig (noDigitHead_cons ' ' _ (by decide)))]
  rfl

theorem getVal_pro_answer (dc dp db df rest : List Char)
    (hdcd : ∀ c ∈ dc, c.isDigit = true) (hne : dp ≠ [])
    (hdig : ∀ c ∈ dp, c.isDigit = true) :
    getVal proPre gSuf (answerChars dc dp db df rest) = digitsToNat dp := by
  rw [answerChars, getVal]
  simp only [List.append_assoc]
  rw [findMatch_skip proPre gSuf (by decide) calPre _ (by decide),
    findMatch_skip proPre gSuf (by decide) dc _ (head_star_ne_digits proPre rfl dc hdcd),
    findMatch_skip proPre gSuf (by decide) calSuf _ (by decide),
    findMatch_skip proPre gSuf (by decide) "\n".data _ (by decide),
    findMatch_of_matchAt proPre gSuf _ (digitsToNat dp)
      (matchAt_exact proPre dp gSuf _ hne hdig (noDigitHead_cons 'g' _ (by decide)))]
  rfl

theorem getVal_carb_answer (dc dp db df rest : List Char)
    (hdcd : ∀ c ∈ dc, c.isDigit = true) (hdpd : ∀ c ∈ dp, c.isDigit = true)
    (hne : db ≠ []) (hdig : ∀ c ∈ db, c.isDigit = true) :
    getVal carbPre gSuf (answerChars dc dp db df rest) = digitsToNat db := by
  rw [answerChars, getVal]
  simp only [List.append_assoc]
  rw [findMatch_skip carbPre gSuf (by decide) calPre _ (by decide),
    findMatch_skip carbPre gSuf (by decide) dc _ (head_star_ne_digits carbPre rfl dc hdcd),
    findMatch_skip carbPre gSuf (by decide) calSuf _ (by decide),
    findMatch_skip carbPre gSuf (by decide) "\n".data _ (by decide),
    findMatch_skip_of_all_fail carbPre gSuf proPre _
      (by have hlen : proPre.length = 13 := rfl
          intro i hi; rw [hlen] at hi; interval_cases i <;> rfl),
    findMatch_skip carbPre gSuf (by decide) dp _ (head_star_ne_digits carbPre rfl dp hdpd),
    findMatch_skip carbPre gSuf (by decide) gSuf _ (by decide),
    findMatch_skip carbPre gSuf (by decide) sepChars _ (by decide),
    findMatch_of_matchAt carbPre gSuf _ (digitsToNat db)
      (matchAt_exact carbPre db gSuf _ hne hdig (noDigitHead_cons 'g' _ (by decide)))]
  rfl

theorem getVal_fat_answer (dc dp db df rest : List Char)
    (hdcd : ∀ c ∈ dc, c.isDigit = true) (hdpd : ∀ c ∈ dp, c.isDigit = true)
    (hdbd : ∀ c ∈ db, c.isDigit = true) (hne : df ≠ [])
    (hdig : ∀ c ∈ df, c.isDigit = true) :
    getVal fatPre gSuf (answerChars dc dp db df rest) = digitsToNat df := by
  rw [answerChars, getVal]
  simp only [List.append_assoc]
  rw [findMatch_skip fatPre gSuf (by decide) calPre _ (by decide),
    findMatch_skip fatPre gSuf (by decide) dc _ (head_star_ne_digits fatPre rfl dc hdcd),
    findMatch_skip fatPre gSuf (by decide) calSuf _ (by decide),
    findMatch_skip fatPre gSuf (by decide) "\n".data _ (by decide),
    findMatch_skip_of_all_fail fatPre gSuf proPre _
      (by have hlen : proPre.length = 13 := rfl
          intro i hi; rw [hlen] at hi; interval_cases i <;> rfl),
    findMatch_skip fatPre gSuf (by decide) dp _ (head_star_ne_digits fatPre rfl dp hdpd),
    findMatch_skip fatPre gSuf (by decide) gSuf _ (by decide),
    findMatch_skip fatPre gSuf (by decide) sepChars _ (by decide),
    findMatch_skip_of_all_fail fatPre gSuf carbPre _
      (by have hlen : carbPre.length = 11 := rfl
          intro i hi; rw [hlen] at hi; interval_cases i <;> rfl),
    findMatch_skip fatPre gSuf (by decide) db _ (head_star_ne_digits fatPre rfl db hdbd),
    findMatch_skip fatPre gSuf (by decide) gSuf _ (by decide),
    findMatch_skip fatPre gSuf (by decide) sepChars _ (by decide),
    findMatch_of_matchAt fatPre gSuf _ (digitsToNat df)
      (matchAt_exact fatPre df gSuf _ hne hdig (noDigitHead_cons 'g' _ (by decide)))]
  rfl

/-- Claim C1: on every answer matching the fixed two-line template,
`parseMacros` returns exactly the four embedded integers — the digits
after `# ⚡ ` and before ` Calories` as calories, and the digits after
`**Protein:** `, `**Carbs:** `, `**Fat:** ` and before `g` as protein,
carbs and fat.  The continuation `rest` is arbitrary, so any further
occurrence of a pattern later in the string is ignored: the earliest
occurrence wins. -/
theorem parseMacros_extracts_template_values
    (dc dp db df rest : List Char)
    (hdc : dc ≠ []) (hdp : dp ≠ []) (hdb : db ≠ []) (hdf : df ≠ [])
    (hdcd : ∀ c ∈ dc, c.isDigit = true) (hdpd : ∀ c ∈ dp, c.isDigit = true)
    (hdbd : ∀ c ∈ db, c.isDigit = true) (hdfd : ∀ c ∈ df, c.isDigit = true) :
    parseMacros (String.mk (answerChars dc dp db df rest)) =
      ⟨digitsToNat dc, digitsToNat dp, digitsToNat db, digitsToNat df⟩ := by
  show (⟨getVal calPre calSuf (answerChars dc dp db df rest),
    getVal proPre gSuf (answerChars dc dp db df rest),
    getVal carbPre gSuf (answerChars dc dp db df rest),
    getVal fatPre gSuf (answerChars dc dp db df rest)⟩ : Macros) = _
  rw [getVal_cal_answer dc dp db df rest hdc hdcd,
    getVal_pro_answer dc dp db df rest hdcd hdp hdpd,
    getVal_carb_answer dc dp db df rest hdcd hdpd hdb hdbd,
    getVal_fat_answer dc dp db df rest hdcd hdpd hdbd hdf hdfd]

/-- Witness for C1: the spec's example answer, with a second full
template appended after it whose values are provably ignored. -/
theorem parseMacros_extracts_template_values_witness :
    parseMacros (String.mk (answerChars "540".data "30".data "60".data "20".data
      ("\n".data ++ answerChars "999".data "1".data "2".data "3".data []))) =
      ⟨540, 30, 60, 20⟩ := by
  have h := parseMacros_extracts_template_values "540".data "30".data "60".data "20".data
    ("\n".data ++ answerChars "999".data "1".data "2".data "3".data [])
    (by decide) (by decide) (by decide) (by decide)
    (by decide) (by decide) (by decide) (by decide)
  exact h.trans (by decide)

/-! ## Meal record store

`insertMeal` is the updater `prev => [newMeal, ...prev]` of line 121,
`deleteMeal` the updater `prev => prev.filter(m => m.id !== id)` of
lines 133–135. -/

/-- Insert a meal at the front of the collection. -/
def insertMeal (m : Meal) (prev : List Meal) : List Meal :=
  m :: prev

/-- Delete the meals whose identifier equals `id`. -/
def deleteMeal (id : String) (prev : List Meal) : List Meal :=
  prev.filter fun m => m.id != id

/-- Claim C5: insert places the new record at index 0 with all existing
records following unchanged, and delete preserves the relative order of
the remaining records (the result is a sublist of the original). -/
theorem insert_front_delete_order_spec :
    (∀ (m : Meal) (prev : List Meal),
      (insertMeal m prev).head? = some m ∧ (insertMeal m prev).tail = prev) ∧
    ∀ (id : String) (prev : List Meal), (deleteMeal id prev).Sublist prev :=
  ⟨fun _ _ => ⟨rfl, rfl⟩, fun _ prev => List.filter_sublist prev⟩

/-- Claim C10: a single delete removes every record bearing the given
identifier, not only the first — a record survives the delete exactly
when it was present before and its identifier differs. -/
theorem deleteMeal_removes_all_matching :
    ∀ (id : String) (prev : List Meal) (m : Meal),
      m ∈ deleteMeal id prev ↔ m ∈ prev ∧ m.id ≠ id := by
  intro id prev m
  simp [deleteMeal, List.mem_filter]

/-- A concrete meal used in counterexamples and witnesses. -/
def mealA : Meal := ⟨"1", 1, "imgA", ⟨10, 1, 2, 3⟩, "a"⟩

/-- A second concrete meal with a distinct identifier. -/
def mealB : Meal := ⟨"2", 2, "imgB", ⟨20, 4, 5, 6⟩, "b"⟩

/-- Counterexample to C6 as stated: over a collection already holding a
record with the same identifier, insert-then-delete does not restore the
prior state, because delete removes every record with that identifier. -/
theorem insert_delete_duplicate_counterexample :
    deleteMeal "1" (insertMeal mealA [mealA]) ≠ [mealA] := by decide

/-- Claim C6 as amended: provided no existing record bears the inserted
record's identifier, inserting it and then deleting by its identifier
restores the prior collection, content and order; and deleting an
identifier absent from the collection is a no-op, not an error. -/
theorem insert_delete_roundtrip_amended :
    (∀ (r : Meal) (prev : List Meal), (∀ m ∈ prev, m.id ≠ r.id) →
      deleteMeal r.id (insertMeal r prev) = prev) ∧
    ∀ (id : String) (prev : List Meal), (∀ m ∈ prev, m.id ≠ id) →
      deleteMeal id prev = prev := by
  have hfix : ∀ (id : String) (prev : List Meal), (∀ m ∈ prev, m.id ≠ id) →
      deleteMeal id prev = prev := by
    intro id prev h
    refine List.filter_eq_self.mpr fun m hm => ?_
    simpa using h m hm
  refine ⟨fun r prev h => ?_, hfix⟩
  rw [insertMeal, deleteMeal, List.filter_cons_of_neg (by simp), ← deleteMeal, hfix r.id prev h]

/-- Witness for the amended C6 at concrete records with distinct ids. -/
theorem insert_delete_roundtrip_amended_witness :
    deleteMeal mealA.id (insertMeal mealA [mealB]) = [mealB] ∧
      deleteMeal "7" [mealA, mealB] = [mealA, mealB] :=
  ⟨insert_delete_roundtrip_amended.1 mealA [mealB] (by decide),
    insert_delete_roundtrip_amended.2 "7" [mealA, mealB] (by decide)⟩

/-! ## Aggregator -/

/-- The aggregator `totalMacros` of lines 137–142: a fold over the
collection summing each macro field, starting from all zeros. -/
def totalMacros (meals : List Meal) : Macros :=
  meals.foldl
    (fun acc meal => ⟨acc.calories + meal.macros.calories, acc.protein + meal.macros.protein,
      acc.carbs + meal.macros.carbs, acc.fat + meal.macros.fat⟩)
    ⟨0, 0, 0, 0⟩

theorem totalMacros_eq_sum_aux (meals : List Meal) :
    ∀ acc : Macros,
      meals.foldl
        (fun acc meal => ⟨acc.calories + meal.macros.calories, acc.protein + meal.macros.protein,
          acc.carbs + meal.macros.carbs, acc.fat + meal.macros.fat⟩) acc =
      ⟨acc.calories + (meals.map fun m => m.macros.calories).sum,
        acc.protein + (meals.map fun m => m.macros.protein).sum,
        acc.carbs + (meals.map fun m => m.macros.carbs).sum,
        acc.fat + (meals.map fun m => m.macros.fat).sum⟩ := by
  induction meals with
  | nil => intro acc; simp
  | cons m t ih => intro acc; simp [List.foldl_cons, ih]; omega

/-- The aggregate is the element-wise sum of the collection's macros. -/
theorem totalMacros_eq_sum (meals : List Meal) :
    totalMacros meals =
      ⟨(meals.map fun m => m.macros.calories).sum, (meals.map fun m => m.macros.protein).sum,
        (meals.map fun m => m.macros.carbs).sum, (meals.map fun m => m.macros.fat).sum⟩ := by
  rw [totalMacros, totalMacros_eq_sum_aux]
  simp

/-- Claim C4: the aggregate equals the element-wise sum of all records'
macro values, the empty collection yields all zeros, the result is
invariant under reordering of the records, and the spec's two-record
example sums to `{30, 5, 7, 9}` in either order.  (`totalMacros` is a
pure function of the collection: it is recomputed from `meals` alone.) -/
theorem totalMacros_sum_spec :
    totalMacros [] = ⟨0, 0, 0, 0⟩ ∧
    (∀ meals : List Meal,
      totalMacros meals =
        ⟨(meals.map fun m => m.macros.calories).sum, (meals.map fun m => m.macros.protein).sum,
          (meals.map fun m => m.macros.carbs).sum, (meals.map fun m => m.macros.fat).sum⟩) ∧
    (∀ l l' : List Meal, l.Perm l' → totalMacros l = totalMacros l') ∧
    ∀ m₁ m₂ : Meal, m₁.macros = ⟨10, 1, 2, 3⟩ → m₂.macros = ⟨20, 4, 5, 6⟩ →
      totalMacros [m₁, m₂] = ⟨30, 5, 7, 9⟩ ∧ totalMacros [m₂, m₁] = ⟨30, 5, 7, 9⟩ := by
  refine ⟨rfl, totalMacros_eq_sum, fun l l' hperm => ?_, fun m₁ m₂ h₁ h₂ => ?_⟩
  · rw [totalMacros_eq_sum, totalMacros_eq_sum]
    rw [(hperm.map fun m => m.macros.calories).sum_eq,
      (hperm.map fun m => m.macros.protein).sum_eq,
      (hperm.map fun m => m.macros.carbs).sum_eq,
      (hperm.map fun m => m.macros.fat).sum_eq]
  · constructor <;> simp [totalMacros_eq_sum, h₁, h₂]

/-- Witness for C4: order independence applied at a concrete swap. -/
theorem totalMacros_sum_spec_witness :
    totalMacros [mealA, mealB] = totalMacros [mealB, mealA] ∧
      totalMacros [mealA, mealB] = ⟨30, 5, 7, 9⟩ :=
  ⟨totalMacros_sum_spec.2.2.1 [mealA, mealB] [mealB, mealA] (List.Perm.swap mealB mealA []),
    (totalMacros_sum_spec.2.2.2 mealA mealB rfl rfl).1⟩

/-! ## Image preprocessor: output dimensions

`compressImage` (lines 67–92) draws the decoded image onto a canvas of
width `MAX_WIDTH = 300` and height `img.height * scaleSize` with
`scaleSize = MAX_WIDTH / img.width`, then re-encodes as JPEG at quality
0.7.  The dimension computation is embedded over exact rationals in
place of JavaScript floating point (the claim's instances are exact in
both); decoding, drawing and JPEG encoding are external to it. -/

/-- The fixed target width of the compressed image. -/
def MAX_WIDTH : ℚ := 300

/-- The scale factor `MAX_WIDTH / img.width`. -/
def scaleSize (w : ℚ) : ℚ := MAX_WIDTH / w

/-- Output dimensions of `compressImage` for an input of width `w` and
height `h`: the canvas is `MAX_WIDTH` wide and `h * scaleSize w` tall. -/
def compressDims (w h : ℚ) : ℚ × ℚ := (MAX_WIDTH, h * scaleSize w)

/-- Claim C8: the output width is the fixed maximum 300 and the height is
the input height scaled by the same ratio (so the aspect ratio is
preserved: `height' * w = h * 300`, i.e. `height' / 300 = h / w`); a
1200×800 input yields 300×200, and a 100×100 input is upscaled to
300×300 (the code's policy for inputs narrower than 300: it always
rescales to width 300, hence upscales). -/
theorem compressDims_spec :
    (∀ w h : ℚ, w ≠ 0 →
      (compressDims w h).1 = 300 ∧ (compressDims w h).2 * w = h * 300) ∧
    compressDims 1200 800 = (300, 200) ∧
    compressDims 100 100 = (300, 300) := by
  refine ⟨fun w h hw => ⟨rfl, ?_⟩, ?_, ?_⟩
  · rw [compressDims, scaleSize, MAX_WIDTH]
    field_simp
  · rw [compressDims, scaleSize, MAX_WIDTH, Prod.mk.injEq]
    norm_num
  · rw [compressDims, scaleSize, MAX_WIDTH, Prod.mk.injEq]
    norm_num

/-- Witness for C8 at the spec's 1200×800 instance. -/
theorem compressDims_spec_witness :
    (compressDims 1200 800).1 = 300 ∧ (compressDims 1200 800).2 * 1200 = 800 * 300 :=
  compressDims_spec.1 1200 800 (by norm_num)

/-! ## Submission workflow

`handleSubmit` (lines 94–131) is embedded as a state transformer.  The
collaborator `analyzeImage` is a parameter `analyze` returning `none`
when the call itself raises, or an `AnalyzeResp` carrying the optional
`error` and `text` fields of its result object; `compressImage` is a
parameter `compress` whose `Except.error` case models a rejected
promise.  All failures land in the `catch`/error paths of the source;
`Date.now()` is the parameter `now`. -/

/-- The result object of the external analysis collaborator. -/
structure AnalyzeResp where
  error : Option String
  text : Option String
  deriving DecidableEq, Repr

/-- The component state of `Home` that `handleSubmit` touches. -/
structure AppState where
  meals : List Meal
  loading : Bool
  error : Option String
  file : Option String
  preview : Option String
  deriving DecidableEq, Repr

/-- The success path of `handleSubmit` after the collaborator returned no
(truthy) error: parse the text, compress the image (whose failure is
caught as the generic error, retaining file and preview), construct the
record, prepend it and clear the selected file and preview. -/
def handleOk (st : AppState) (compress : String → Except String String)
    (f text : String) (now : Nat) : AppState :=
  match compress f with
  | .error _ => ⟨st.meals, false, some "An unexpected error occurred.", st.file, st.preview⟩
  | .ok img => ⟨⟨toString now, now, img, parseMacros text, text⟩ :: st.meals, false, none, none, none⟩

/-- The `handleSubmit` handler: no-op without a selected file; otherwise
run the collaborator, branch on a truthy `error` field (a nonempty error
string), and finish in the success or failure state with `loading`
cleared.  A raised call maps to the generic caught error. -/
def handleSubmit (st : AppState) (analyze : String → Option AnalyzeResp)
    (compress : String → Except String String) (now : Nat) : AppState :=
  match st.file with
  | none => st
  | some f =>
    match analyze f with
    | none => ⟨st.meals, false, some "An unexpected error occurred.", st.file, st.preview⟩
    | some resp =>
      match resp.error with
      | some e =>
        if e = "" then handleOk st compress f (resp.text.getD "") now
        else ⟨st.meals, false, some e, st.file, st.preview⟩
      | none => handleOk st compress f (resp.text.getD "") now

/-- Claim C9: every attempt ending in the Failed state — the collaborator
reports an error, the call raises, or preprocessing raises — leaves the
selected image, its preview and the collection unchanged, so a retry
(`handleSubmit` on the failed state) re-runs the submission with the same
image bytes `f` without re-selection; a Succeeded attempt clears the
selected image and preview. -/
theorem submission_failure_retains_input
    (st : AppState) (f : String) (analyze analyze2 : String → Option AnalyzeResp)
    (compress compress2 : String → Except String String) (now now2 : Nat)
    (hf : st.file = some f) :
    (analyze f = none →
      handleSubmit st analyze compress now =
        ⟨st.meals, false, some "An unexpected error occurred.", some f, st.preview⟩) ∧
    (∀ e : String, e ≠ "" → analyze f = some ⟨some e, none⟩ →
      handleSubmit st analyze compress now =
        ⟨st.meals, false, some e, some f, st.preview⟩) ∧
    (∀ t err : String, analyze f = some ⟨none, some t⟩ → compress f = .error err →
      handleSubmit st analyze compress now =
        ⟨st.meals, false, some "An unexpected error occurred.", some f, st.preview⟩) ∧
    (∀ t img : String, analyze f = some ⟨none, some t⟩ → compress f = .ok img →
      handleSubmit st analyze compress now =
        ⟨⟨toString now, now, img, parseMacros t, t⟩ :: st.meals, false, none, none, none⟩) ∧
    (∀ e t2 img2 : String, e ≠ "" → analyze f = some ⟨some e, none⟩ →
      analyze2 f = some ⟨none, some t2⟩ → compress2 f = .ok img2 →
      handleSubmit (handleSubmit st analyze compress now) analyze2 compress2 now2 =
        ⟨⟨toString now2, now2, img2, parseMacros t2, t2⟩ :: st.meals, false, none, none, none⟩) := by
  refine ⟨fun hth => ?_, fun e he herr => ?_, fun t err ha hc => ?_,
    fun t img ha hc => ?_, fun e t2 img2 he herr ha2 hc2 => ?_⟩
  · simp [handleSubmit, hf, hth]
  · simp [handleSubmit, hf, herr, he]
  · simp [handleSubmit, handleOk, hf, ha, hc]
  · simp [handleSubmit, handleOk, hf, ha, hc]
  · have h1 : handleSubmit st analyze compress now =
        ⟨st.meals, false, some e, some f, st.preview⟩ := by
      simp [handleSubmit, hf, herr, he]
    rw [h1]
    simp [handleSubmit, handleOk, ha2, hc2]

/-- A ready-to-submit state holding a selected file and preview. -/
def st0 : AppState := ⟨[], false, none, some "rawImageBytes", some "blobURL"⟩

/-- A collaborator run that reports an error. -/
def analyzeFail : String → Option AnalyzeResp := fun _ => some ⟨some "Failed to analyze image", none⟩

/-- A collaborator run that succeeds with a fixed answer. -/
def analyzeOk : String → Option AnalyzeResp := fun _ => some ⟨none, some "hello"⟩

/-- A preprocessor run that succeeds with a fixed encoding. -/
def compressOk : String → Except String String := fun _ => .ok "jpegData"

/-- Witness for C9: a failed attempt followed by a successful retry on
the same retained bytes inserts the retried record. -/
theorem submission_failure_retains_input_witness :
    handleSubmit (handleSubmit st0 analyzeFail compressOk 5) analyzeOk compressOk 7 =
      ⟨[⟨toString 7, 7, "jpegData", parseMacros "hello", "hello"⟩], false, none, none, none⟩ := by
  have h := submission_failure_retains_input st0 "rawImageBytes" analyzeFail analyzeOk
    compressOk compressOk 5 7 rfl
  exact h.2.2.2.2 "Failed to analyze image" "hello" "jpegData" (by decide) rfl rfl rfl

/-! ## Durable storage: JSON serialization

The store persists through `localStorage.setItem('nutrition_tracker_meals',
JSON.stringify(meals))` and rehydrates through `JSON.parse` inside
`try`/`catch` (lines 29–42).  `JSON.stringify`/`JSON.parse` are platform
primitives, modelled here by an executable printer and recursive-descent
parser over a JSON value type (integer numerals, which is all the meal
shape produces; the parser also accepts the escapes and whitespace that
`JSON.parse` does on this fragment).  Arrays and objects are represented
by the mutual list types so that recursion and induction are
structural. -/

mutual
/-- A JSON value. -/
inductive Json where
  | null : Json
  | bool : Bool → Json
  | num : Int → Json
  | str : String → Json
  | arr : JsonList → Json
  | obj : JsonFields → Json
  deriving DecidableEq, Repr

/-- The elements of a JSON array. -/
inductive JsonList where
  | nil : JsonList
  | cons : Json → JsonList → JsonList
  deriving DecidableEq, Repr

/-- The key–value fields of a JSON object, in insertion order. -/
inductive JsonFields where
  | nil : JsonFields
  | cons : String → Json → JsonFields → JsonFields
  deriving DecidableEq, Repr
end

/-- Serialization of one string character, as `JSON.stringify` escapes
it: quote, backslash and the short control escapes specially, any other
control character as `\u00XX`, everything else verbatim. -/
def escChar (c : Char) : List Char :=
  if c = '"' then ['\\', '"']
  else if c = '\\' then ['\\', '\\']
  else if c = '\x08' then ['\\', 'b']
  else if c = '\t' then ['\\', 't']
  else if c = '\n' then ['\\', 'n']
  else if c = '\x0c' then ['\\', 'f']
  else if c = '\r' then ['\\', 'r']
  else if c.toNat < 32 then
    ['\\', 'u', '0', '0', Nat.digitChar (c.toNat / 16), Nat.digitChar (c.toNat % 16)]
  else [c]

/-- Serialization of a string body, character by character. -/
def escChars : List Char → List Char
  | [] => []
  | c :: cs => escChar c ++ escChars cs

/-- Decimal numeral of a natural number, most significant digit first. -/
def natChars (n : Nat) : List Char :=
  if n = 0 then ['0'] else ((Nat.digits 10 n).map Nat.digitChar).reverse

/-- Decimal numeral of an integer. -/
def intChars (i : Int) : List Char :=
  if i < 0 then '-' :: natChars i.natAbs else natChars i.natAbs

mutual
/-- Serialization of a JSON value, exactly as `JSON.stringify` lays it
out with no indentation argument: no whitespace, fields in insertion
order. -/
def jsonChars : Json → List Char
  | .null => "null".data
  | .bool b => if b then "true".data else "false".data
  | .num i => intChars i
  | .str s => '"' :: escChars s.data ++ ['"']
  | .arr xs => '[' :: elemsChars xs ++ [']']
  | .obj fs => '{' :: fieldsChars fs ++ ['}']

/-- Serialization of array elements, comma-separated. -/
def elemsChars : JsonList → List Char
  | .nil => []
  | .cons v t => jsonChars v ++ sepElems t

/-- The `,`-prefixed tail elements of an array. -/
def sepElems : JsonList → List Char
  | .nil => []
  | .cons v t => ',' :: (jsonChars v ++ sepElems t)

/-- Serialization of object fields, comma-separated `"key":value`. -/
def fieldsChars : JsonFields → List Char
  | .nil => []
  | .cons k v t => '"' :: (escChars k.data ++ ('"' :: ':' :: (jsonChars v ++ sepFields t)))

/-- The `,`-prefixed tail fields of an object. -/
def sepFields : JsonFields → List Char
  | .nil => []
  | .cons k v t =>
    ',' :: '"' :: (escChars k.data ++ ('"' :: ':' :: (jsonChars v ++ sepFields t)))
end

/-- JSON whitespace. -/
def isWsChar (c : Char) : Bool :=
  c == ' ' || c == '\t' || c == '\n' || c == '\r'

/-- Skip leading JSON whitespace. -/
def skipWs : List Char → List Char
  | [] => []
  | c :: cs => if isWsChar c then skipWs cs else c :: cs

/-- Value of a hexadecimal digit. -/
def hexVal (c : Char) : Option Nat :=
  if c.isDigit then some (c.toNat - 48)
  else if 'a' ≤ c ∧ c ≤ 'f' then some (c.toNat - 87)
  else if 'A' ≤ c ∧ c ≤ 'F' then some (c.toNat - 55)
  else none

/-- Meaning of a single-character escape. -/
def unescape (c : Char) : Option Char :=
  if c = '"' then some '"'
  else if c = '\\' then some '\\'
  else if c = '/' then some '/'
  else if c = 'b' then some '\x08'
  else if c = 'f' then some '\x0c'
  else if c = 'n' then some '\n'
  else if c = 'r' then some '\r'
  else if c = 't' then some '\t'
  else none

/-- Parse the body of a JSON string after its opening quote, returning
the decoded characters and the remainder after the closing quote. -/
def parseStringBody : List Char → Option (List Char × List Char)
  | [] => none
  | c :: cs =>
    if c = '"' then some ([], cs)
    else if c = '\\' then
      match cs with
      | [] => none
      | e :: cs1 =>
        if e = 'u' then
          match cs1 with
          | h1 :: h2 :: h3 :: h4 :: cs2 =>
            match hexVal h1, hexVal h2, hexVal h3, hexVal h4 with
            | some a, some b, some x, some y =>
              match parseStringBody cs2 with
              | some (chars, rest) =>
                some (Char.ofNat (((a * 16 + b) * 16 + x) * 16 + y) :: chars, rest)
              | none => none
            | _, _, _, _ => none
          | _ => none
        else
          match unescape e with
          | some d =>
            match parseStringBody cs1 with
            | some (chars, rest) => some (d :: chars, rest)
            | none => none
          | none => none
    else
      match parseStringBody cs with
      | some (chars, rest) => some (c :: chars, rest)
      | none => none

mutual
/-- Recursive-descent parse of one JSON value, with `fuel` bounding the
recursion depth.  Returns the value and the unconsumed remainder. -/
def parseValue : Nat → List Char → Option (Json × List Char)
  | 0, _ => none
  | fuel + 1, s =>
    match skipWs s with
    | [] => none
    | c :: cs =>
      if c = 'n' then
        if "ull".data.isPrefixOf cs then some (.null, cs.drop 3) else none
      else if c = 't' then
        if "rue".data.isPrefixOf cs then some (.bool true, cs.drop 3) else none
      else if c = 'f' then
        if "alse".data.isPrefixOf cs then some (.bool false, cs.drop 4) else none
      else if c = '"' then
        match parseStringBody cs with
        | some (chars, rest) => some (.str (String.mk chars), rest)
        | none => none
      else if c = '[' then
        if (skipWs cs).head? = some ']' then some (.arr .nil, (skipWs cs).tail)
        else
          match parseElems fuel (skipWs cs) with
          | some (xs, rest) => some (.arr xs, rest)
          | none => none
      else if c = '{' then
        if (skipWs cs).head? = some '}' then some (.obj .nil, (skipWs cs).tail)
        else
          match parseFields fuel (skipWs cs) with
          | some (fs, rest) => some (.obj fs, rest)
          | none => none
      else if c = '-' then
        if (cs.takeWhile Char.isDigit).isEmpty then none
        else some (.num (-(digitsToNat (cs.takeWhile Char.isDigit) : Int)),
          cs.dropWhile Char.isDigit)
      else if c.isDigit then
        some (.num (Int.ofNat (digitsToNat ((c :: cs).takeWhile Char.isDigit))),
          (c :: cs).dropWhile Char.isDigit)
      else none

/-- Parse the nonempty element list of an array up to its `]`. -/
def parseElems : Nat → List Char → Option (JsonList × List Char)
  | 0, _ => none
  | fuel + 1, s =>
    match parseValue fuel s with
    | none => none
    | some (v, rest) =>
      match skipWs rest with
      | ',' :: rest1 =>
        match parseElems fuel rest1 with
        | some (xs, rest2) => some (.cons v xs, rest2)
        | none => none
      | ']' :: rest1 => some (.cons v .nil, rest1)
      | _ => none

/-- Parse the nonempty field list of an object up to its `}`. -/
def parseFields : Nat → List Char → Option (JsonFields × List Char)
  | 0, _ => none
  | fuel + 1, s =>
    match skipWs s with
    | '"' :: cs =>
      match parseStringBody cs with
      | some (kchars, rest) =>
        match skipWs rest with
        | ':' :: rest1 =>
          match parseValue fuel rest1 with
          | some (v, rest2) =>
            match skipWs rest2 with
            | ',' :: rest3 =>
              match parseFields fuel rest3 with
              | some (fs, rest4) => some (.cons (String.mk kchars) v fs, rest4)
              | none => none
            | '}' :: rest3 => some (.cons (String.mk kchars) v .nil, rest3)
            | _ => none
          | none => none
        | _ => none
      | none => none
    | _ => none
end

/-- The `JSON.parse` model: parse one value and demand that nothing but
whitespace remains, with fuel ample for the input length. -/
def jsonParse (s : String) : Except String Json :=
  match parseValue (s.data.length + 2) s.data with
  | some (v, rest) => if (skipWs rest).isEmpty then .ok v else .error "Unexpected non-whitespace character after JSON data"
  | none => .error "Unexpected token in JSON"

example : jsonParse "42" = .ok (.num 42) := rfl
example : jsonParse "[1, 2]" = .ok (.arr (.cons (.num 1) (.cons (.num 2) .nil))) := rfl
example : jsonParse "\x7b\"a\": -3\x7d" = .ok (.obj (.cons "a" (.num (-3)) .nil)) := rfl
example : (jsonParse "not json").isOk = false := by decide
example :
    jsonParse (String.mk (jsonChars (.str "a\n\"b\\c"))) = .ok (.str "a\n\"b\\c") := rfl

/-! ### Round-trip of the printer through the parser -/

/-- A digit differs from any non-digit character. -/
theorem ne_of_isDigit (c x : Char) (h : c.isDigit = true) (hx : x.isDigit = false) :
    c ≠ x := by
  intro he
  rw [he, hx] at h
  exact Bool.false_ne_true h

/-- Digits are not JSON whitespace. -/
theorem ws_false_of_digit (c : Char) (h : c.isDigit = true) : isWsChar c = false := by
  rw [isWsChar,
    beq_eq_false_iff_ne.mpr (ne_of_isDigit c ' ' h (by decide)),
    beq_eq_false_iff_ne.mpr (ne_of_isDigit c '\t' h (by decide)),
    beq_eq_false_iff_ne.mpr (ne_of_isDigit c '\n' h (by decide)),
    beq_eq_false_iff_ne.mpr (ne_of_isDigit c '\r' h (by decide))]
  rfl

/-- Whitespace skipping stops at a non-whitespace character. -/
theorem skipWs_cons_false (c : Char) (l : List Char) (h : isWsChar c = false) :
    skipWs (c :: l) = c :: l := by
  rw [skipWs, h]
  rfl

/-- One backslash escape pair decodes to its character and the decoding
continues. -/
theorem psb_escape_pair (e d : Char) (w r chars : List Char) (he : ¬ e = 'u')
    (hu : unescape e = some d) (hw : parseStringBody w = some (chars, r)) :
    parseStringBody ('\\' :: e :: w) = some (d :: chars, r) := by
  rw [parseStringBody.eq_def]
  simp [he, hu, hw]

/-- A `\u00XY` escape decodes to the character with that code point and
the decoding continues. -/
theorem psb_u (e3 e4 : Char) (x y : Nat) (w r chars : List Char)
    (hx : hexVal e3 = some x) (hy : hexVal e4 = some y)
    (hw : parseStringBody w = some (chars, r)) :
    parseStringBody ('\\' :: 'u' :: '0' :: '0' :: e3 :: e4 :: w) =
      some (Char.ofNat (((0 * 16 + 0) * 16 + x) * 16 + y) :: chars, r) := by
  rw [parseStringBody.eq_def]
  simp only [reduceIte, show hexVal '0' = some 0 from rfl, hx, hy, hw]
  rw [if_neg (by decide : ¬ '\\' = '"')]

/-- An unescaped ordinary character decodes to itself and the decoding
continues. -/
theorem psb_plain (c : Char) (w r chars : List Char) (h1 : ¬ c = '"') (h2 : ¬ c = '\\')
    (hw : parseStringBody w = some (chars, r)) :
    parseStringBody (c :: w) = some (c :: chars, r) := by
  rw [parseStringBody.eq_def]
  simp [h1, h2, hw]

/-- Decoding inverts the escaping of every string body: the parser
consumes exactly the escaped characters and the closing quote. -/
theorem parseStringBody_escape : ∀ cs r : List Char,
    parseStringBody (escChars cs ++ '"' :: r) = some (cs, r)
  | [], r => by
    rw [show escChars [] = [] from rfl, List.nil_append, parseStringBody.eq_def]
    simp
  | c :: t, r => by
    have ih := parseStringBody_escape t r
    rw [show escChars (c :: t) = escChar c ++ escChars t from rfl, List.append_assoc]
    by_cases h1 : c = '"'
    · subst h1
      exact psb_escape_pair '"' '"' _ r t (by decide) (by decide) ih
    · by_cases h2 : c = '\\'
      · subst h2
        exact psb_escape_pair '\\' '\\' _ r t (by decide) (by decide) ih
      · by_cases h3 : c = '\x08'
        · subst h3
          exact psb_escape_pair 'b' '\x08' _ r t (by decide) (by decide) ih
        · by_cases h4 : c = '\t'
          · subst h4
            exact psb_escape_pair 't' '\t' _ r t (by decide) (by decide) ih
          · by_cases h5 : c = '\n'
            · subst h5
              exact psb_escape_pair 'n' '\n' _ r t (by decide) (by decide) ih
            · by_cases h6 : c = '\x0c'
              · subst h6
                exact psb_escape_pair 'f' '\x0c' _ r t (by decide) (by decide) ih
              · by_cases h7 : c = '\r'
                · subst h7
                  exact psb_escape_pair 'r' '\r' _ r t (by decide) (by decide) ih
                · by_cases h8 : c.toNat < 32
                  · have hchars : escChar c = ['\\', 'u', '0', '0',
                        Nat.digitChar (c.toNat / 16), Nat.digitChar (c.toNat % 16)] := by
                      simp [escChar, h1, h2, h3, h4, h5, h6, h7, h8]
                    have hx : hexVal (Nat.digitChar (c.toNat / 16)) = some (c.toNat / 16) := by
                      have hdiv : c.toNat / 16 = 0 ∨ c.toNat / 16 = 1 := by omega
                      rcases hdiv with h | h <;> rw [h] <;> decide
                    have hy : hexVal (Nat.digitChar (c.toNat % 16)) = some (c.toNat % 16) := by
                      have hmod : c.toNat % 16 < 16 := Nat.mod_lt _ (by norm_num)
                      set m := c.toNat % 16 with hm
                      interval_cases m <;> decide
                    rw [hchars, List.cons_append, List.cons_append, List.cons_append,
                      List.cons_append, List.cons_append, List.cons_append, List.nil_append,
                      psb_u _ _ _ _ _ r t hx hy ih,
                      show ((0 * 16 + 0) * 16 + c.toNat / 16) * 16 + c.toNat % 16 =
                        c.toNat from by omega,
                      Char.ofNat_toNat]
                  · have hchars : escChar c = [c] := by
                      simp [escChar, h1, h2, h3, h4, h5, h6, h7, h8]
                    rw [hchars, List.cons_append, List.nil_append]
                    exact psb_plain c _ r t h1 h2 ih

example : parseStringBody (escChars "x\u0001\tq".data ++ '"' :: "zz".data) =
    some ("x\u0001\tq".data, "zz".data) := parseStringBody_escape _ _

/-! ### Numerals -/

theorem digitChar_isDigit (d : Nat) (h : d < 10) : (Nat.digitChar d).isDigit = true := by
  interval_cases d <;> decide

theorem digitChar_val (d : Nat) (h : d < 10) : (Nat.digitChar d).toNat - 48 = d := by
  interval_cases d <;> decide

theorem digitsToNat_append_last (l : List Char) (c : Char) :
    digitsToNat (l ++ [c]) = digitsToNat l * 10 + (c.toNat - 48) := by
  rw [digitsToNat, digitsToNat, List.foldl_append]
  rfl

theorem digitsToNat_rev_map (ds : List Nat) (h : ∀ d ∈ ds, d < 10) :
    digitsToNat ((ds.map Nat.digitChar).reverse) = Nat.ofDigits 10 ds := by
  induction ds with
  | nil => simp [digitsToNat, Nat.ofDigits_nil]
  | cons d t ih =>
    rw [List.map_cons, List.reverse_cons, digitsToNat_append_last,
      ih fun x hx => h x (List.mem_cons_of_mem d hx),
      digitChar_val d (h d (List.mem_cons_self d t)), Nat.ofDigits_cons]
    ring

/-- The decimal numeral of `n` evaluates back to `n`. -/
theorem digitsToNat_natChars (n : Nat) : digitsToNat (natChars n) = n := by
  by_cases h : n = 0
  · subst h; decide
  · rw [natChars, if_neg h,
      digitsToNat_rev_map _ fun d hd => Nat.digits_lt_base (by norm_num) hd,
      Nat.ofDigits_digits]

theorem natChars_ne_nil (n : Nat) : natChars n ≠ [] := by
  by_cases h : n = 0
  · subst h; decide
  · rw [natChars, if_neg h]
    simp [Nat.digits_ne_nil_iff_ne_zero, h]

theorem natChars_digits (n : Nat) : ∀ c ∈ natChars n, c.isDigit = true := by
  by_cases h : n = 0
  · subst h; intro c hc
    rw [show natChars 0 = ['0'] from rfl, List.mem_singleton] at hc
    subst hc; decide
  · rw [natChars, if_neg h]
    intro c hc
    rw [List.mem_reverse] at hc
    obtain ⟨d, hd, rfl⟩ := List.mem_map.mp hc
    exact digitChar_isDigit d (Nat.digits_lt_base (by norm_num) hd)

/-! ### The parser inverts the printer, branch by branch -/

theorem parseValue_null (fuel : Nat) (r : List Char) :
    parseValue (fuel + 1) ("null".data ++ r) = some (.null, r) := by
  rw [show "null".data ++ r = 'n' :: 'u' :: 'l' :: 'l' :: r from rfl, parseValue.eq_def]
  simp [skipWs, isWsChar, List.isPrefixOf]

theorem parseValue_true (fuel : Nat) (r : List Char) :
    parseValue (fuel + 1) ("true".data ++ r) = some (.bool true, r) := by
  rw [show "true".data ++ r = 't' :: 'r' :: 'u' :: 'e' :: r from rfl, parseValue.eq_def]
  simp [skipWs, isWsChar, List.isPrefixOf]

theorem parseValue_false (fuel : Nat) (r : List Char) :
    parseValue (fuel + 1) ("false".data ++ r) = some (.bool false, r) := by
  rw [show "false".data ++ r = 'f' :: 'a' :: 'l' :: 's' :: 'e' :: r from rfl, parseValue.eq_def]
  simp [skipWs, isWsChar, List.isPrefixOf]

theorem parseValue_str (fuel : Nat) (s : String) (r : List Char) :
    parseValue (fuel + 1) (jsonChars (.str s) ++ r) = some (.str s, r) := by
  rw [show jsonChars (.str s) ++ r = '"' :: (escChars s.data ++ ('"' :: r)) from by
      rw [show jsonChars (.str s) = '"' :: escChars s.data ++ ['"'] from rfl]
      simp,
    parseValue.eq_def]
  simp [skipWs, isWsChar, parseStringBody_escape s.data r]

theorem parseValue_digits (fuel : Nat) (ds r : List Char) (hne : ds ≠ [])
    (hds : ∀ c ∈ ds, c.isDigit = true) (hr : noDigitHead r) :
    parseValue (fuel + 1) (ds ++ r) = some (.num (Int.ofNat (digitsToNat ds)), r) := by
  cases ds with
  | nil => exact absurd rfl hne
  | cons d t =>
    have hd : d.isDigit = true := hds d (List.mem_cons_self d t)
    have htw := takeWhile_digits (d :: t) r hds hr
    have hdw := dropWhile_digits (d :: t) r hds hr
    rw [List.cons_append] at htw hdw
    simp [parseValue.eq_def, skipWs, ws_false_of_digit d hd,
      ne_of_isDigit d 'n' hd (by decide), ne_of_isDigit d 't' hd (by decide),
      ne_of_isDigit d 'f' hd (by decide), ne_of_isDigit d '"' hd (by decide),
      ne_of_isDigit d '[' hd (by decide), ne_of_isDigit d '{' hd (by decide),
      ne_of_isDigit d '-' hd (by decide), hd, htw, hdw]

theorem parseValue_neg_digits (fuel : Nat) (ds r : List Char) (hne : ds ≠ [])
    (hds : ∀ c ∈ ds, c.isDigit = true) (hr : noDigitHead r) :
    parseValue (fuel + 1) ('-' :: (ds ++ r)) = some (.num (-(digitsToNat ds : Int)), r) := by
  cases ds with
  | nil => exact absurd rfl hne
  | cons d t =>
    have hd : d.isDigit = true := hds d (List.mem_cons_self d t)
    have htw := takeWhile_digits (d :: t) r hds hr
    have hdw := dropWhile_digits (d :: t) r hds hr
    rw [List.cons_append] at htw hdw
    simp [parseValue.eq_def, skipWs, isWsChar, hd, htw, hdw]

/-- The printed numeral of any integer parses back to it. -/
theorem parseValue_int (fuel : Nat) (i : Int) (r : List Char) (hr : noDigitHead r) :
    parseValue (fuel + 1) (intChars i ++ r) = some (.num i, r) := by
  cases i with
  | ofNat n =>
    rw [intChars, if_neg (by simp : ¬ (Int.ofNat n < 0))]
    have h := parseValue_digits fuel (natChars (Int.ofNat n).natAbs) r
      (natChars_ne_nil _) (natChars_digits _) hr
    rw [digitsToNat_natChars] at h
    simpa using h
  | negSucc n =>
    rw [intChars, if_pos (Int.negSucc_lt_zero n), List.cons_append]
    have h := parseValue_neg_digits fuel (natChars (Int.negSucc n).natAbs) r
      (natChars_ne_nil _) (natChars_digits _) hr
    rw [digitsToNat_natChars] at h
    rw [h]
    have habs : -((Int.negSucc n).natAbs : Int) = Int.negSucc n := by
      rw [Int.natAbs_negSucc, Int.negSucc_eq]
      push_cast
      ring
    rw [habs]

theorem parseValue_arr_nil (fuel : Nat) (r : List Char) :
    parseValue (fuel + 1) (jsonChars (.arr .nil) ++ r) = some (.arr .nil, r) := by
  rw [show jsonChars (.arr .nil) ++ r = '[' :: ']' :: r from rfl, parseValue.eq_def]
  simp [skipWs, isWsChar]

theorem parseValue_obj_nil (fuel : Nat) (r : List Char) :
    parseValue (fuel + 1) (jsonChars (.obj .nil) ++ r) = some (.obj .nil, r) := by
  rw [show jsonChars (.obj .nil) ++ r = '{' :: '}' :: r from rfl, parseValue.eq_def]
  simp [skipWs, isWsChar]

/-- A character that may legally begin a printed JSON value: not
whitespace and none of the closing delimiters or the comma. -/
def startOk (c : Char) : Prop :=
  isWsChar c = false ∧ c ≠ ']' ∧ c ≠ '}' ∧ c ≠ ','

/-- Every printed JSON value begins with a `startOk` character. -/
theorem jsonChars_starter : ∀ j : Json, ∃ c cs, jsonChars j = c :: cs ∧ startOk c := by
  intro j
  cases j with
  | null => exact ⟨'n', _, rfl, by decide, by decide, by decide, by decide⟩
  | bool b =>
    cases b
    · exact ⟨'f', _, rfl, by decide, by decide, by decide, by decide⟩
    · exact ⟨'t', _, rfl, by decide, by decide, by decide, by decide⟩
  | num i =>
    cases i with
    | ofNat n =>
      rcases hnc : natChars n with _ | ⟨c, cs⟩
      · exact absurd hnc (natChars_ne_nil n)
      · have hc : c.isDigit = true := natChars_digits n c (by rw [hnc]; exact List.mem_cons_self c cs)
        refine ⟨c, cs, ?_, ws_false_of_digit c hc, ne_of_isDigit c ']' hc (by decide),
          ne_of_isDigit c '}' hc (by decide), ne_of_isDigit c ',' hc (by decide)⟩
        rw [show jsonChars (.num (Int.ofNat n)) = intChars (Int.ofNat n) from rfl, intChars,
          if_neg (by simp : ¬ (Int.ofNat n < 0))]
        simpa using hnc
    | negSucc n =>
      refine ⟨'-', natChars (Int.negSucc n).natAbs, ?_, by decide, by decide, by decide,
        by decide⟩
      rw [show jsonChars (.num (Int.negSucc n)) = intChars (Int.negSucc n) from rfl, intChars,
        if_pos (Int.negSucc_lt_zero n)]
  | str s => exact ⟨'"', _, rfl, by decide, by decide, by decide, by decide⟩
  | arr xs => exact ⟨'[', _, rfl, by decide, by decide, by decide, by decide⟩
  | obj fs => exact ⟨'{', _, rfl, by decide, by decide, by decide, by decide⟩

mutual
/-- Number of nodes of a JSON value, bounding the parser fuel it needs. -/
def jsize : Json → Nat
  | .null => 1
  | .bool _ => 1
  | .num _ => 1
  | .str _ => 1
  | .arr xs => 1 + jsizeList xs
  | .obj fs => 1 + jsizeFields fs

/-- Node count of array elements. -/
def jsizeList : JsonList → Nat
  | .nil => 0
  | .cons v t => 1 + jsize v + jsizeList t

/-- Node count of object fields. -/
def jsizeFields : JsonFields → Nat
  | .nil => 0
  | .cons _ v t => 1 + jsize v + jsizeFields t
end

mutual
/-- The node count never exceeds the printed length. -/
theorem jsize_le : ∀ j : Json, jsize j ≤ (jsonChars j).length
  | .null => by simp [jsize, jsonChars]
  | .bool b => by cases b <;> simp [jsize, jsonChars]
  | .num i => by
    have h2 : 1 ≤ (natChars i.natAbs).length :=
      List.length_pos.mpr (natChars_ne_nil _)
    rw [show jsonChars (.num i) = intChars i from rfl, show jsize (.num i) = 1 from rfl,
      intChars]
    by_cases h : i < 0
    · rw [if_pos h]
      simp
    · rw [if_neg h]
      omega
  | .str s => by
    rw [show jsonChars (.str s) = '"' :: escChars s.data ++ ['"'] from rfl,
      show jsize (.str s) = 1 from rfl]
    simp
  | .arr .nil => by simp [jsize, jsizeList, jsonChars, elemsChars]
  | .arr (.cons v t) => by
    have h1 := jsize_le v
    have h2 := jsizeList_le_sep t
    rw [show jsonChars (.arr (.cons v t)) =
        '[' :: (jsonChars v ++ sepElems t) ++ [']'] from rfl,
      show jsize (.arr (.cons v t)) = 1 + (1 + jsize v + jsizeList t) from rfl]
    simp only [List.length_append, List.length_cons, List.length_singleton]
    omega
  | .obj .nil => by simp [jsize, jsizeFields, jsonChars, fieldsChars]
  | .obj (.cons k v t) => by
    have h1 := jsize_le v
    have h2 := jsizeFields_le_sep t
    rw [show jsonChars (.obj (.cons k v t)) =
        '{' :: ('"' :: (escChars k.data ++ ('"' :: ':' :: (jsonChars v ++ sepFields t)))) ++
          ['}'] from rfl,
      show jsize (.obj (.cons k v t)) = 1 + (1 + jsize v + jsizeFields t) from rfl]
    simp only [List.length_append, List.length_cons, List.length_singleton]
    omega

/-- The element node count never exceeds the separated tail's length. -/
theorem jsizeList_le_sep : ∀ xs : JsonList, jsizeList xs ≤ (sepElems xs).length
  | .nil => by simp [jsizeList, sepElems]
  | .cons v t => by
    have h1 := jsize_le v
    have h2 := jsizeList_le_sep t
    rw [show sepElems (.cons v t) = ',' :: (jsonChars v ++ sepElems t) from rfl,
      show jsizeList (.cons v t) = 1 + jsize v + jsizeList t from rfl]
    simp only [List.length_append, List.length_cons]
    omega

/-- The field node count never exceeds the separated tail's length. -/
theorem jsizeFields_le_sep : ∀ fs : JsonFields, jsizeFields fs ≤ (sepFields fs).length
  | .nil => by simp [jsizeFields, sepFields]
  | .cons k v t => by
    have h1 := jsize_le v
    have h2 := jsizeFields_le_sep t
    rw [show sepFields (.cons k v t) =
        ',' :: '"' :: (escChars k.data ++ ('"' :: ':' :: (jsonChars v ++ sepFields t))) from rfl,
      show jsizeFields (.cons k v t) = 1 + jsize v + jsizeFields t from rfl]
    simp only [List.length_append, List.length_cons]
    omega
end

theorem noDigitHead_sepElems (t : JsonList) (r : List Char) :
    noDigitHead (sepElems t ++ ']' :: r) := by
  cases t with
  | nil => exact noDigitHead_cons ']' r (by decide)
  | cons w t' =>
    intro c hc
    rw [show sepElems (.cons w t') = ',' :: (jsonChars w ++ sepElems t') from rfl,
      List.cons_append, List.head?_cons] at hc
    simp only [Option.some.injEq] at hc
    subst hc
    decide

theorem noDigitHead_sepFields (t : JsonFields) (r : List Char) :
    noDigitHead (sepFields t ++ '}' :: r) := by
  cases t with
  | nil => exact noDigitHead_cons '}' r (by decide)
  | cons k v t' =>
    intro c hc
    rw [show sepFields (.cons k v t') =
        ',' :: '"' :: (escChars k.data ++ ('"' :: ':' :: (jsonChars v ++ sepFields t'))) from
        rfl, List.cons_append, List.head?_cons] at hc
    simp only [Option.some.injEq] at hc
    subst hc
    decide

/-- The parser inverts the printer: with fuel exceeding the node count,
a printed JSON value followed by any continuation not starting with a
digit parses back to exactly that value with the continuation
untouched — and likewise for nonempty printed element and field lists
followed by their closing delimiter. -/
theorem parse_print (fuel : Nat) :
    (∀ (j : Json) (r : List Char), jsize j < fuel → noDigitHead r →
      parseValue fuel (jsonChars j ++ r) = some (j, r)) ∧
    (∀ (v : Json) (t : JsonList) (r : List Char), jsizeList (.cons v t) < fuel →
      parseElems fuel (elemsChars (.cons v t) ++ ']' :: r) = some (.cons v t, r)) ∧
    (∀ (k : String) (v : Json) (t : JsonFields) (r : List Char),
      jsizeFields (.cons k v t) < fuel →
      parseFields fuel (fieldsChars (.cons k v t) ++ '}' :: r) = some (.cons k v t, r)) := by
  induction fuel with
  | zero =>
    exact ⟨fun j r h _ => absurd h (Nat.not_lt_zero _),
      fun v t r h => absurd h (Nat.not_lt_zero _),
      fun k v t r h => absurd h (Nat.not_lt_zero _)⟩
  | succ fuel ih =>
    obtain ⟨ihV, ihE, ihF⟩ := ih
    refine ⟨?_, ?_, ?_⟩
    · intro j r hsz hr
      cases j with
      | null => exact parseValue_null fuel r
      | bool b =>
        cases b
        · exact parseValue_false fuel r
        · exact parseValue_true fuel r
      | num i => exact parseValue_int fuel i r hr
      | str s => exact parseValue_str fuel s r
      | arr xs =>
        cases xs with
        | nil => exact parseValue_arr_nil fuel r
        | cons v t =>
          obtain ⟨c, cs0, hc, hw, hne1, hne2, hne3⟩ := jsonChars_starter v
          have hsz' : jsizeList (.cons v t) < fuel := by
            rw [show jsize (.arr (.cons v t)) = 1 + jsizeList (.cons v t) from rfl] at hsz
            omega
          have hElems := ihE v t r hsz'
          have hE : elemsChars (.cons v t) = c :: (cs0 ++ sepElems t) := by
            rw [show elemsChars (.cons v t) = jsonChars v ++ sepElems t from rfl, hc,
              List.cons_append]
          have hskip2 : skipWs (elemsChars (.cons v t) ++ (']' :: r)) =
              elemsChars (.cons v t) ++ (']' :: r) := by
            rw [hE, List.cons_append]
            exact skipWs_cons_false c _ hw
          have hhead : (elemsChars (.cons v t) ++ (']' :: r)).head? = some c := by
            rw [hE, List.cons_append, List.head?_cons]
          have hshape : jsonChars (.arr (.cons v t)) ++ r =
              '[' :: (elemsChars (.cons v t) ++ (']' :: r)) := by
            rw [show jsonChars (.arr (.cons v t)) =
              '[' :: elemsChars (.cons v t) ++ [']'] from rfl]
            simp
          rw [hshape]
          simp [parseValue.eq_def, skipWs_cons_false '[' _ (by decide), hskip2, hhead, hne1,
            hElems]
      | obj fs =>
        cases fs with
        | nil => exact parseValue_obj_nil fuel r
        | cons k v t =>
          have hsz' : jsizeFields (.cons k v t) < fuel := by
            rw [show jsize (.obj (.cons k v t)) = 1 + jsizeFields (.cons k v t) from rfl] at hsz
            omega
          have hFields := ihF k v t r hsz'
          have hF : fieldsChars (.cons k v t) =
              '"' :: (escChars k.data ++ ('"' :: ':' :: (jsonChars v ++ sepFields t))) := rfl
          have hskip2 : skipWs (fieldsChars (.cons k v t) ++ ('}' :: r)) =
              fieldsChars (.cons k v t) ++ ('}' :: r) := by
            rw [hF, List.cons_append]
            exact skipWs_cons_false '"' _ (by decide)
          have hhead : (fieldsChars (.cons k v t) ++ ('}' :: r)).head? = some '"' := by
            rw [hF, List.cons_append, List.head?_cons]
          have hshape : jsonChars (.obj (.cons k v t)) ++ r =
              '{' :: (fieldsChars (.cons k v t) ++ ('}' :: r)) := by
            rw [show jsonChars (.obj (.cons k v t)) =
              '{' :: fieldsChars (.cons k v t) ++ ['}'] from rfl]
            simp
          rw [hshape]
          simp [parseValue.eq_def, skipWs_cons_false '{' _ (by decide), hskip2, hhead, hFields]
    · intro v t r hsz
      have hsz0 : jsize v < fuel := by
        rw [show jsizeList (.cons v t) = 1 + jsize v + jsizeList t from rfl] at hsz
        omega
      have hV : parseValue fuel (jsonChars v ++ (sepElems t ++ ']' :: r)) =
          some (v, sepElems t ++ ']' :: r) :=
        ihV v _ hsz0 (noDigitHead_sepElems t r)
      have hshape : elemsChars (.cons v t) ++ ']' :: r =
          jsonChars v ++ (sepElems t ++ ']' :: r) := by
        rw [show elemsChars (.cons v t) = jsonChars v ++ sepElems t from rfl, List.append_assoc]
      rw [hshape, parseElems.eq_def]
      cases t with
      | nil =>
        rw [show sepElems JsonList.nil ++ ']' :: r = ']' :: r from rfl] at hV ⊢
        simp [hV, skipWs, isWsChar]
      | cons w t' =>
        have hsz'' : jsizeList (.cons w t') < fuel := by
          rw [show jsizeList (.cons v (.cons w t')) =
            1 + jsize v + jsizeList (.cons w t') from rfl] at hsz
          omega
        have hE2 := ihE w t' r hsz''
        have hsep : sepElems (.cons w t') ++ ']' :: r =
            ',' :: (elemsChars (.cons w t') ++ ']' :: r) := by
          rw [show sepElems (.cons w t') = ',' :: (jsonChars w ++ sepElems t') from rfl,
            show elemsChars (.cons w t') = jsonChars w ++ sepElems t' from rfl,
            List.cons_append, List.append_assoc]
        rw [hsep] at hV ⊢
        simp [hV, skipWs, isWsChar, hE2]
    · intro k v t r hsz
      have hsz0 : jsize v < fuel := by
        rw [show jsizeFields (.cons k v t) = 1 + jsize v + jsizeFields t from rfl] at hsz
        omega
      have hV : parseValue fuel (jsonChars v ++ (sepFields t ++ '}' :: r)) =
          some (v, sepFields t ++ '}' :: r) :=
        ihV v _ hsz0 (noDigitHead_sepFields t r)
      have hpsb : parseStringBody
          (escChars k.data ++ '"' :: (':' :: (jsonChars v ++ (sepFields t ++ '}' :: r)))) =
          some (k.data, ':' :: (jsonChars v ++ (sepFields t ++ '}' :: r))) :=
        parseStringBody_escape k.data _
      have hshape : fieldsChars (.cons k v t) ++ '}' :: r =
          '"' :: (escChars k.data ++ '"' ::
            (':' :: (jsonChars v ++ (sepFields t ++ '}' :: r)))) := by
        rw [show fieldsChars (.cons k v t) =
          '"' :: (escChars k.data ++ ('"' :: ':' :: (jsonChars v ++ sepFields t))) from rfl]
        simp
      rw [hshape, parseFields.eq_def]
      cases t with
      | nil =>
        rw [show sepFields JsonFields.nil ++ '}' :: r = '}' :: r from rfl] at hV hpsb ⊢
        simp [hpsb, hV, skipWs, isWsChar]
        try rfl
      | cons k2 v2 t' =>
        have hsz'' : jsizeFields (.cons k2 v2 t') < fuel := by
          rw [show jsizeFields (.cons k v (.cons k2 v2 t')) =
            1 + jsize v + jsizeFields (.cons k2 v2 t') from rfl] at hsz
          omega
        have hF2 := ihF k2 v2 t' r hsz''
        have hsep : sepFields (.cons k2 v2 t') ++ '}' :: r =
            ',' :: (fieldsChars (.cons k2 v2 t') ++ '}' :: r) := by
          rw [show sepFields (.cons k2 v2 t') = ',' :: '"' ::
              (escChars k2.data ++ ('"' :: ':' :: (jsonChars v2 ++ sepFields t'))) from rfl,
            show fieldsChars (.cons k2 v2 t') = '"' ::
              (escChars k2.data ++ ('"' :: ':' :: (jsonChars v2 ++ sepFields t'))) from rfl]
          simp
        rw [hsep] at hV hpsb ⊢
        simp [hpsb, hV, skipWs, isWsChar, hF2]
        try rfl

/-- The full `JSON.parse` model inverts the printer on every value. -/
theorem jsonParse_print (j : Json) : jsonParse (String.mk (jsonChars j)) = .ok j := by
  have hfp := (parse_print ((jsonChars j).length + 2)).1 j []
    (by have := jsize_le j; omega) (fun c hc => by simp at hc)
  rw [List.append_nil] at hfp
  rw [jsonParse]
  simp [hfp, skipWs]

/-! ### The meal shape in storage -/

/-- The JSON object `JSON.stringify` produces for a `Macros` value, with
the fields in the interface's insertion order. -/
def encodeMacros (m : Macros) : Json :=
  .obj (.cons "calories" (.num m.calories) (.cons "protein" (.num m.protein)
    (.cons "carbs" (.num m.carbs) (.cons "fat" (.num m.fat) .nil))))

/-- The JSON object `JSON.stringify` produces for a `Meal` record, with
the fields in the insertion order of lines 113–119. -/
def encodeMeal (m : Meal) : Json :=
  .obj (.cons "id" (.str m.id) (.cons "timestamp" (.num m.timestamp)
    (.cons "image" (.str m.image) (.cons "macros" (encodeMacros m.macros)
      (.cons "rawText" (.str m.rawText) .nil)))))

/-- The JSON array elements for a meal collection, in order. -/
def encodeMealList : List Meal → JsonList
  | [] => .nil
  | m :: t => .cons (encodeMeal m) (encodeMealList t)

/-- The JSON array `JSON.stringify` serializes for the collection. -/
def encodeMeals (ms : List Meal) : Json :=
  .arr (encodeMealList ms)

/-- `JSON.stringify(meals)`, the value written to the single storage key
(line 41). -/
def stringifyMeals (ms : List Meal) : String :=
  String.mk (jsonChars (encodeMeals ms))

/-- The save effect on the single storage key (line 41):
`localStorage.setItem` overwrites whatever `prior` held. -/
def saveMeals (ms : List Meal) (prior : Option String) : Option String :=
  some (stringifyMeals ms)

/-- The load effect of lines 29–38 on the `meals` state, whose initial
value is `[]` (the empty JSON array): an absent key leaves it empty; a
stored string is fed to `JSON.parse`, whose exception is caught leaving
the state empty, and whose successful result is installed verbatim —
the source performs no shape validation on the parsed value. -/
def loadMeals (saved : Option String) : Json :=
  match saved with
  | none => Json.arr .nil
  | some s =>
    match jsonParse s with
    | .ok v => v
    | .error _ => Json.arr .nil

/-- Modelled from the spec: the meal-record-array shape of the durable
storage contract (spec §6) — the source installs parsed values without
an explicit decoder, so conformance to the shape is specified here as
this decoder's success. -/
def decodeMacros : Json → Option Macros
  | .obj (.cons "calories" (.num (Int.ofNat c)) (.cons "protein" (.num (Int.ofNat p))
      (.cons "carbs" (.num (Int.ofNat cb)) (.cons "fat" (.num (Int.ofNat f)) .nil)))) =>
    some ⟨c, p, cb, f⟩
  | _ => none

/-- Modelled from the spec: one meal record of the §6 storage shape. -/
def decodeMeal : Json → Option Meal
  | .obj (.cons "id" (.str id) (.cons "timestamp" (.num (Int.ofNat ts))
      (.cons "image" (.str img) (.cons "macros" mj (.cons "rawText" (.str rt) .nil))))) =>
    match decodeMacros mj with
    | some mac => some ⟨id, ts, img, mac, rt⟩
    | none => none
  | _ => none

/-- Modelled from the spec: the element-wise decoding of the stored
array. -/
def decodeMealList : JsonList → Option (List Meal)
  | .nil => some []
  | .cons j t =>
    match decodeMeal j, decodeMealList t with
    | some m, some ms => some (m :: ms)
    | _, _ => none

/-- Modelled from the spec: a value conforms to the meal-record-array
shape exactly when this returns the records. -/
def decodeMeals : Json → Option (List Meal)
  | .arr l => decodeMealList l
  | _ => none

theorem decode_encode_meal (m : Meal) : decodeMeal (encodeMeal m) = some m := by
  cases m with
  | mk id ts img mac rt => cases mac; rfl

theorem decode_encode_mealList : ∀ ms : List Meal,
    decodeMealList (encodeMealList ms) = some ms
  | [] => rfl
  | m :: t => by
    simp [encodeMealList, decodeMealList, decode_encode_meal m, decode_encode_mealList t]

/-- Claim C7: persisting any collection (an overwrite of the single
storage key, regardless of what it held before) and loading it back
yields exactly the serialized sequence, which decodes to an equal
ordered list of records. -/
theorem save_load_roundtrip :
    ∀ (ms : List Meal) (prior : Option String),
      loadMeals (saveMeals ms prior) = encodeMeals ms ∧
      decodeMeals (encodeMeals ms) = some ms := by
  intro ms prior
  constructor
  · rw [saveMeals, loadMeals, stringifyMeals, jsonParse_print]
  · rw [encodeMeals, decodeMeals]
    exact decode_encode_mealList ms

/-- Counterexample to C3 as stated: the stored string `"42"` is present
and is not valid structured data of the meal-record-array shape, yet
load yields the number 42 — not the empty collection — because the
source validates nothing beyond JSON well-formedness. -/
theorem loadMeals_nonconforming_counterexample :
    loadMeals (some "42") = Json.num 42 ∧
    decodeMeals (Json.num 42) = none ∧
    loadMeals (some "42") ≠ Json.arr JsonList.nil := by
  refine ⟨rfl, rfl, ?_⟩
  intro h
  rw [show loadMeals (some "42") = Json.num 42 from rfl] at h
  exact Json.noConfusion h

/-- Claim C3 as amended: load never raises; an absent key or a stored
value that is not syntactically valid JSON yields the empty collection,
while a syntactically valid value is installed verbatim even when it
does not conform to the meal-record-array shape. -/
theorem loadMeals_amended :
    loadMeals none = Json.arr JsonList.nil ∧
    ∀ s : String,
      (∀ e, jsonParse s = .error e → loadMeals (some s) = Json.arr JsonList.nil) ∧
      ∀ v, jsonParse s = .ok v → loadMeals (some s) = v := by
  refine ⟨rfl, fun s => ⟨fun e he => ?_, fun v hv => ?_⟩⟩
  · simp [loadMeals, he]
  · simp [loadMeals, hv]

/-- Witness for the amended C3: a syntactically corrupt store yields the
empty collection, a valid but non-conforming one is installed as is. -/
theorem loadMeals_amended_witness :
    loadMeals (some "not json") = Json.arr JsonList.nil ∧
      loadMeals (some "42") = Json.num 42 :=
  ⟨(loadMeals_amended.2 "not json").1 "Unexpected token in JSON" rfl,
    (loadMeals_amended.2 "42").2 (Json.num 42) rfl⟩

end Nutrition
